import Mathlib

/-!
Shallow embedding of the TenderAI proposal-evaluation engine
(`tenderai/schemas.py`, `tenderai/agents/evaluate_agent.py`).

Modelling conventions:
* Python floats are modelled as exact rationals (`ℚ`).  Every numeric
  constant of the engine (weights, caps, confidences in the scenarios
  below) is exactly representable, and no claim instance sits on a
  rounding tie, so binary-float round-half-to-even and rational
  round-to-nearest agree on everything stated here.
* Python dicts built by comprehension (`{r.id: r.type for r in ...}`)
  are modelled as association lists where the *last* binding for a key
  wins, with `.get(k, default)` as `dictGet`.
* `pydantic` `Literal` fields are modelled as `String` (the runtime
  lookups treat them as plain strings); the `Field(ge=0.0, le=1.0)`
  constraint on `RequirementScore.confidence` is enforced where pydantic
  enforces it: at construction time, inside the normalizer.
* The LLM call plus JSON decoding of `_evaluate_chunk` is abstracted as
  a `rawOracle : List Requirement → Except String RawPayload`; the field
  extraction and defaulting that follows it (lines 131-145) is embedded
  verbatim.  `bool(...)`/`float(...)` coercions are identities in this
  typed model, since JSON booleans/numbers arrive already typed.
* The `ThreadPoolExecutor` dispatch of `_run_llm_evaluation` is modelled
  by an explicit completion order: `as_completed` yields the chunk
  futures in an arbitrary order, each result being written into its
  chunk-indexed slot.  `ThreadPoolExecutor(max_workers=0)` raises
  `ValueError`, which the embedding reproduces for an empty chunk list.
* The presentation string built by `_build_summary` is omitted from the
  embedded `ProposalEvaluation`: no claim concerns it and its exact text
  depends on Python float formatting.
-/

/-- Schema `Requirement` (schemas.py).  `type` and `priority` are
`Literal` enums at the pydantic layer, used as plain strings by the
engine. -/
structure Requirement where
  id : String
  type : String
  title : String
  description : String
  priority : String
  mandatory_evidence : Option String
  evaluation_hint : Option String
deriving DecidableEq, Repr

/-- Schema `RequirementsDoc` (schemas.py). -/
structure RequirementsDoc where
  rfp_title : Option String
  requirements : List Requirement
deriving DecidableEq, Repr

/-- Schema `Evidence` (schemas.py). -/
structure Evidence where
  quote : String
  location : String
deriving DecidableEq, Repr

/-- Schema `RequirementScore` (schemas.py).  `confidence` carries the
pydantic bound `0 ≤ confidence ≤ 1` (`Field(ge=0.0, le=1.0)`), recorded
separately as `ScoreValid`. -/
structure RequirementScore where
  requirement_id : String
  requirement_type : String
  met : Bool
  confidence : ℚ
  justification : String
  failure_reason : Option String
  evidences : List Evidence
deriving DecidableEq, Repr

/-- The pydantic range constraint on `RequirementScore.confidence`. -/
def ScoreValid (s : RequirementScore) : Prop :=
  0 ≤ s.confidence ∧ s.confidence ≤ 1

/-- Schema `MandatoryGateResult` (schemas.py). -/
structure MandatoryGateResult where
  passed : Bool
  failures : List String
  score_cap : ℚ
deriving DecidableEq, Repr

/-- Schema `ProposalEvaluation` (schemas.py), minus the presentation
`summary` string (see the module comment). -/
structure ProposalEvaluation where
  vendor_name : String
  mandatory_gate : MandatoryGateResult
  match_percentage : ℚ
  raw_score : ℚ
  scores : List RequirementScore
  recommendation : String
deriving DecidableEq, Repr

/-- Python dict built from an association list (later bindings win),
queried with `.get(k, dflt)`. -/
def dictGet {β : Type} (pairs : List (String × β)) (k : String) (dflt : β) : β :=
  match pairs.reverse.find? (fun p => p.1 == k) with
  | some p => p.2
  | none => dflt

/-- The dict `{r.id: r.type for r in requirements_doc.requirements}`. -/
def typeMap (doc : RequirementsDoc) : List (String × String) :=
  doc.requirements.map (fun r => (r.id, r.type))

/-- The dict `{r.id: r.priority for r in requirements_doc.requirements}`. -/
def priorityMap (doc : RequirementsDoc) : List (String × String) :=
  doc.requirements.map (fun r => (r.id, r.priority))

/-- `EvaluateAgent.TYPE_WEIGHTS.get(t, 1.0)`. -/
def typeWeightsGet (t : String) : ℚ :=
  if t = "mandatory" then 3
  else if t = "integration" then 2
  else if t = "technical" then 3/2
  else if t = "functional" then 1
  else if t = "delivery" then 4/5
  else 1

/-- `EvaluateAgent.PRIORITY_WEIGHTS.get(p, 1.0)`. -/
def priorityWeightsGet (p : String) : ℚ :=
  if p = "High" then 3
  else if p = "Medium" then 2
  else if p = "Low" then 1
  else 1

/-- `EvaluateAgent.SCORE_CAPS.get(n, DEFAULT_CAP)`. -/
def scoreCapsGet (n : Nat) : ℚ :=
  if n = 0 then 100
  else if n = 1 then 75
  else if n = 2 then 60
  else 40

/-- Python `round(x, 1)`: round to one decimal place.  Mathlib `round`
is round-half-up while Python is round-half-to-even; they agree off
ties, and no value arising in the claims is a tie.  Written with
`Rat.floor` so that the definition evaluates inside the kernel;
`round1_eq_round` restates it through Mathlib `round`. -/
def round1 (x : ℚ) : ℚ :=
  (((x * 10 + 1/2).floor : ℤ) : ℚ) / 10

theorem rat_floor_eq_intFloor (q : ℚ) : q.floor = ⌊q⌋ :=
  (Rat.floor_def' q).trans Rat.floor_def.symm

theorem round1_eq_round (x : ℚ) : round1 x = ((round (x * 10) : ℤ) : ℚ) / 10 := by
  unfold round1
  rw [round_eq, rat_floor_eq_intFloor]

/-- Python `min(a, b)` on floats (returns the first argument on ties),
written with an executable comparison; equal to Mathlib `min`. -/
def pymin (a b : ℚ) : ℚ :=
  if a ≤ b then a else b

theorem pymin_eq_min (a b : ℚ) : pymin a b = min a b := by
  rw [min_def, pymin]

/-- `EvaluateAgent._compute_mandatory_gate` (evaluate_agent.py 147-155). -/
def computeMandatoryGate (scores : List RequirementScore) (doc : RequirementsDoc) :
    MandatoryGateResult :=
  let failed_ids :=
    (scores.filter (fun s =>
        dictGet (typeMap doc) s.requirement_id s.requirement_type = "mandatory"
          ∧ ¬ s.met)).map (fun s => s.requirement_id)
  { passed := failed_ids.length == 0
    failures := failed_ids
    score_cap := scoreCapsGet failed_ids.length }

/-- Weight of one score inside `_compute_weighted_score`:
`TYPE_WEIGHTS.get(type_map.get(id, "functional"), 1.0) *
PRIORITY_WEIGHTS.get(priority_map.get(id, "Medium"), 1.0)`. -/
def scoreWeight (doc : RequirementsDoc) (s : RequirementScore) : ℚ :=
  typeWeightsGet (dictGet (typeMap doc) s.requirement_id "functional")
    * priorityWeightsGet (dictGet (priorityMap doc) s.requirement_id "Medium")

/-- `EvaluateAgent._compute_weighted_score` (evaluate_agent.py 157-167). -/
def computeWeightedScore (scores : List RequirementScore) (doc : RequirementsDoc) : ℚ :=
  let acc := scores.foldl
    (fun (acc : ℚ × ℚ) s =>
      let w := scoreWeight doc s
      (acc.1 + w, if s.met then acc.2 + w * s.confidence else acc.2))
    (0, 0)
  if acc.1 = 0 then 0 else round1 (acc.2 / acc.1 * 100)

/-- `EvaluateAgent._get_recommendation` (evaluate_agent.py 169-173). -/
def getRecommendation (gate : MandatoryGateResult) (final_score : ℚ) : String :=
  if 2 ≤ gate.failures.length then "REJECT"
  else if gate.failures.length = 1 ∨ final_score < 70 then "SEEK CLARIFICATION"
  else if 85 ≤ final_score then "AWARD"
  else "SEEK CLARIFICATION"

/-! ### Judgment normalizer (`_evaluate_chunk`, lines 131-145)

The oracle payload after JSON decoding: a dict possibly holding a
`scores` list of records with optional fields.  `Option` marks absence
of the key. -/

/-- Raw evidence record from the decoded oracle payload. -/
structure RawEvidence where
  quote : Option String
  location : Option String
deriving DecidableEq, Repr

/-- Raw per-requirement record from the decoded oracle payload. -/
structure RawScore where
  requirement_id : Option String
  requirement_type : Option String
  met : Option Bool
  confidence : Option ℚ
  justification : Option String
  failure_reason : Option String
  evidences : Option (List RawEvidence)
deriving DecidableEq, Repr

/-- Decoded oracle payload: `data`, holding `data.get("scores", [])`. -/
structure RawPayload where
  scores : Option (List RawScore)
deriving DecidableEq, Repr

/-- Evidence normalization: `{"quote": e.get("quote", ""), "location":
e.get("location", "")}`. -/
def normalizeEvidence (e : RawEvidence) : Evidence :=
  { quote := e.quote.getD "", location := e.location.getD "" }

/-- Normalization of one record: `RequirementScore(requirement_id =
s["requirement_id"], ..., met = bool(s["met"]), confidence =
float(s.get("confidence", 0.5)), ...)`.  A missing `requirement_id` or
`met` key is a `KeyError` (keyword arguments evaluate left to right, so
`requirement_id` is checked first); the pydantic `0 ≤ confidence ≤ 1`
bound is checked at construction. -/
def normalizeScore (s : RawScore) : Except String RequirementScore :=
  match s.requirement_id with
  | none => .error "KeyError: requirement_id"
  | some rid =>
    match s.met with
    | none => .error "KeyError: met"
    | some m =>
      let conf := s.confidence.getD (1/2)
      if 0 ≤ conf ∧ conf ≤ 1 then
        .ok { requirement_id := rid
              requirement_type := s.requirement_type.getD "functional"
              met := m
              confidence := conf
              justification := s.justification.getD ""
              failure_reason := s.failure_reason
              evidences := (s.evidences.getD []).map normalizeEvidence }
      else .error "ValidationError: confidence out of range"

/-- The list comprehension over `data.get("scores", [])`: normalization
of each record in order, aborting at the first bad record. -/
def normalizeScores : List RawScore → Except String (List RequirementScore)
  | [] => .ok []
  | r :: rs => do
    let s ← normalizeScore r
    let rest ← normalizeScores rs
    .ok (s :: rest)

/-- Normalization of a whole decoded payload (`_evaluate_chunk` return
expression): `[RequirementScore(...) for s in data.get("scores", [])]`. -/
def normalizeRawPayload (p : RawPayload) : Except String (List RequirementScore) :=
  normalizeScores (p.scores.getD [])

/-- `EvaluateAgent._evaluate_chunk`: the oracle call plus JSON decode is
abstracted as `rawOracle`; the following normalization is embedded. -/
def evaluateChunk (rawOracle : List Requirement → Except String RawPayload)
    (chunk : List Requirement) : Except String (List RequirementScore) := do
  let p ← rawOracle chunk
  normalizeRawPayload p

/-! ### Chunk dispatcher (`_run_llm_evaluation`, lines 46-54) -/

/-- Module constant `CHUNK_SIZE = 15`. -/
def CHUNK_SIZE : Nat := 15

/-- Fuel-driven chunking, mirroring
`[reqs[i:i + CHUNK_SIZE] for i in range(0, len(reqs), CHUNK_SIZE)]`.
The fuel is an upper bound on the number of slicing steps; structural
recursion on it keeps the definition kernel-reducible. -/
def chunksOfF {α : Type} : Nat → Nat → List α → List (List α)
  | _, _, [] => []
  | 0, _, _ :: _ => []
  | fuel + 1, cs, x :: xs => ((x :: xs).take cs) :: chunksOfF fuel cs ((x :: xs).drop cs)

/-- Contiguous chunks of size `cs` (last chunk possibly smaller).  For
`1 ≤ cs` the fuel `l.length` always suffices (`chunksOf_cons`). -/
def chunksOf {α : Type} (cs : Nat) (l : List α) : List (List α) :=
  chunksOfF l.length cs l

/-- The `as_completed` collection loop:
`for f in as_completed(futures): results[futures[f]] = f.result()`.
`order` is the completion order of the chunk futures; `f.result()`
re-raises any exception of the chunk call. -/
def collectResults (rawOracle : List Requirement → Except String RawPayload)
    (chunks : List (List Requirement)) :
    List Nat → List (Option (List RequirementScore)) →
    Except String (List (Option (List RequirementScore)))
  | [], acc => .ok acc
  | idx :: rest, acc => do
    let r ← evaluateChunk rawOracle (chunks.getD idx [])
    collectResults rawOracle chunks rest (acc.set idx (some r))

/-- `EvaluateAgent._run_llm_evaluation` (lines 46-54), parameterized by
the completion order of the chunk futures.
`ThreadPoolExecutor(max_workers=len(chunks))` raises `ValueError` when
the chunk list is empty (`max_workers` must be positive). -/
def runLLMEvaluation (rawOracle : List Requirement → Except String RawPayload)
    (completionOrder : List Nat) (doc : RequirementsDoc) :
    Except String (List RequirementScore) :=
  let chunks := chunksOf CHUNK_SIZE doc.requirements
  if chunks.length = 0 then
    .error "ValueError: max_workers must be greater than 0"
  else do
    let slots ← collectResults rawOracle chunks completionOrder
      (List.replicate chunks.length none)
    .ok ((slots.map (fun o => o.getD [])).flatten)

/-- `EvaluateAgent.evaluate_proposal` (lines 24-44). -/
def evaluateProposal (rawOracle : List Requirement → Except String RawPayload)
    (completionOrder : List Nat) (vendor_name : String) (doc : RequirementsDoc) :
    Except String ProposalEvaluation := do
  let raw_scores ← runLLMEvaluation rawOracle completionOrder doc
  let mandatory_gate := computeMandatoryGate raw_scores doc
  let raw_score := computeWeightedScore raw_scores doc
  let cap := scoreCapsGet mandatory_gate.failures.length
  let final_score := pymin raw_score cap
  .ok { vendor_name := vendor_name
        mandatory_gate := mandatory_gate
        match_percentage := round1 final_score
        raw_score := round1 raw_score
        scores := raw_scores
        recommendation := getRecommendation mandatory_gate final_score }

/-! ### Chunking lemmas -/

theorem chunksOfF_fuel {α : Type} :
    ∀ (f₁ : Nat) (f₂ cs : Nat) (l : List α), l.length ≤ f₁ → l.length ≤ f₂ → 1 ≤ cs →
      chunksOfF f₁ cs l = chunksOfF f₂ cs l := by
  intro f₁
  induction f₁ with
  | zero =>
    intro f₂ cs l h1 _ _
    have hl : l = [] := List.length_eq_zero.mp (Nat.le_zero.mp h1)
    subst hl
    cases f₂ <;> rfl
  | succ g ih =>
    intro f₂ cs l h1 h2 hcs
    cases l with
    | nil => cases f₂ <;> rfl
    | cons x xs =>
      cases f₂ with
      | zero => simp at h2
      | succ g₂ =>
        show ((x :: xs).take cs) :: chunksOfF g cs ((x :: xs).drop cs)
            = ((x :: xs).take cs) :: chunksOfF g₂ cs ((x :: xs).drop cs)
        have hd : ((x :: xs).drop cs).length ≤ xs.length := by
          simp only [List.length_drop, List.length_cons]
          omega
        have hg : ((x :: xs).drop cs).length ≤ g := by
          simp only [List.length_cons] at h1; omega
        have hg₂ : ((x :: xs).drop cs).length ≤ g₂ := by
          simp only [List.length_cons] at h2; omega
        rw [ih g₂ cs ((x :: xs).drop cs) hg hg₂ hcs]

theorem chunksOf_cons {α : Type} (cs : Nat) (hcs : 1 ≤ cs) (x : α) (xs : List α) :
    chunksOf cs (x :: xs) =
      ((x :: xs).take cs) :: chunksOf cs ((x :: xs).drop cs) := by
  show chunksOfF (xs.length + 1) cs (x :: xs) = _
  show ((x :: xs).take cs) :: chunksOfF xs.length cs ((x :: xs).drop cs) = _
  unfold chunksOf
  congr 1
  apply chunksOfF_fuel
  · simp only [List.length_drop, List.length_cons]; omega
  · exact Nat.le_refl _
  · exact hcs

theorem chunksOf_flatten_aux {α : Type} (cs : Nat) (hcs : 1 ≤ cs) :
    ∀ (n : Nat) (l : List α), l.length ≤ n → (chunksOf cs l).flatten = l := by
  intro n
  induction n with
  | zero =>
    intro l h
    have hl : l = [] := List.length_eq_zero.mp (Nat.le_zero.mp h)
    subst hl; rfl
  | succ m ih =>
    intro l h
    cases l with
    | nil => rfl
    | cons x xs =>
      rw [chunksOf_cons cs hcs, List.flatten_cons,
        ih ((x :: xs).drop cs) (by simp only [List.length_drop, List.length_cons]
                                   simp only [List.length_cons] at h; omega),
        List.take_append_drop]

/-- Chunking is a partition: flattening the chunks restores the input. -/
theorem chunksOf_flatten {α : Type} (cs : Nat) (hcs : 1 ≤ cs) (l : List α) :
    (chunksOf cs l).flatten = l :=
  chunksOf_flatten_aux cs hcs l.length l (Nat.le_refl _)

theorem chunksOf_mem_length_aux {α : Type} (cs : Nat) (hcs : 1 ≤ cs) :
    ∀ (n : Nat) (l : List α), l.length ≤ n → ∀ c ∈ chunksOf cs l, c.length ≤ cs := by
  intro n
  induction n with
  | zero =>
    intro l h c hc
    have hl : l = [] := List.length_eq_zero.mp (Nat.le_zero.mp h)
    subst hl; simp [chunksOf, chunksOfF] at hc
  | succ m ih =>
    intro l h c hc
    cases l with
    | nil => simp [chunksOf, chunksOfF] at hc
    | cons x xs =>
      rw [chunksOf_cons cs hcs] at hc
      rcases List.mem_cons.mp hc with h1 | h2
      · subst h1
        simp only [List.length_take]
        exact inf_le_left
      · exact ih ((x :: xs).drop cs)
          (by simp only [List.length_drop, List.length_cons]
              simp only [List.length_cons] at h; omega) c h2

/-- Every chunk has length at most the chunk size. -/
theorem chunksOf_mem_length {α : Type} (cs : Nat) (hcs : 1 ≤ cs) (l : List α) :
    ∀ c ∈ chunksOf cs l, c.length ≤ cs :=
  chunksOf_mem_length_aux cs hcs l.length l (Nat.le_refl _)

theorem chunksOf_ne_nil_of_ne_nil {α : Type} (cs : Nat) (hcs : 1 ≤ cs) (l : List α)
    (h : l ≠ []) : chunksOf cs l ≠ [] := by
  cases l with
  | nil => exact absurd rfl h
  | cons x xs => rw [chunksOf_cons cs hcs]; exact List.cons_ne_nil _ _

theorem chunksOf_getD_length_aux {α : Type} (cs : Nat) (hcs : 1 ≤ cs) :
    ∀ (n : Nat) (l : List α), l.length ≤ n →
      ∀ i, i + 1 < (chunksOf cs l).length → ((chunksOf cs l).getD i []).length = cs := by
  intro n
  induction n with
  | zero =>
    intro l h i hi
    have hl : l = [] := List.length_eq_zero.mp (Nat.le_zero.mp h)
    subst hl; simp [chunksOf, chunksOfF] at hi
  | succ m ih =>
    intro l h i hi
    cases l with
    | nil => simp [chunksOf, chunksOfF] at hi
    | cons x xs =>
      rw [chunksOf_cons cs hcs] at hi ⊢
      cases i with
      | zero =>
        simp only [List.getD_cons_zero, List.length_take, List.length_cons]
        have hrest : chunksOf cs ((x :: xs).drop cs) ≠ [] := by
          intro hnil
          rw [List.length_cons, hnil] at hi
          simp at hi
        have hdrop : (x :: xs).drop cs ≠ [] := by
          intro hnil
          exact hrest (by rw [hnil]; rfl)
        have : cs < (x :: xs).length := by
          by_contra hle
          exact hdrop (List.drop_eq_nil_of_le (Nat.le_of_not_lt hle))
        simp only [List.length_cons] at this
        omega
      | succ i' =>
        simp only [List.getD_cons_succ]
        apply ih ((x :: xs).drop cs)
        · simp only [List.length_drop, List.length_cons]
          simp only [List.length_cons] at h
          omega
        · simpa using Nat.lt_of_succ_lt_succ (by simpa using hi)

/-- Every chunk except possibly the last has length exactly the chunk
size. -/
theorem chunksOf_getD_length {α : Type} (cs : Nat) (hcs : 1 ≤ cs) (l : List α) :
    ∀ i, i + 1 < (chunksOf cs l).length → ((chunksOf cs l).getD i []).length = cs :=
  chunksOf_getD_length_aux cs hcs l.length l (Nat.le_refl _)

/-! ### Dispatcher collection lemmas -/

theorem list_eq_of_getD {β : Type} (d : β) :
    ∀ (l1 l2 : List β), l1.length = l2.length →
      (∀ i, i < l1.length → l1.getD i d = l2.getD i d) → l1 = l2 := by
  intro l1
  induction l1 with
  | nil =>
    intro l2 hlen _
    exact (List.length_eq_zero.mp hlen.symm).symm
  | cons x xs ih =>
    intro l2 hlen hget
    cases l2 with
    | nil => simp at hlen
    | cons y ys =>
      have hx : x = y := by
        have := hget 0 (by simp)
        simpa using this
      have hxs : xs = ys := by
        apply ih ys (by simpa using hlen)
        intro i hi
        have := hget (i + 1) (by simpa using Nat.succ_lt_succ hi)
        simpa using this
      rw [hx, hxs]

theorem collectResults_ok (rawOracle : List Requirement → Except String RawPayload)
    (chunks : List (List Requirement)) (g : Nat → List RequirementScore) :
    ∀ (order : List Nat) (acc : List (Option (List RequirementScore))),
      (∀ idx ∈ order, idx < acc.length) →
      (∀ idx ∈ order, evaluateChunk rawOracle (chunks.getD idx []) = .ok (g idx)) →
      ∃ res, collectResults rawOracle chunks order acc = .ok res ∧
        res.length = acc.length ∧
        ∀ i, i < acc.length →
          res.getD i none = if i ∈ order then some (g i) else acc.getD i none := by
  intro order
  induction order with
  | nil =>
    intro acc _ _
    exact ⟨acc, rfl, rfl, fun i _ => by simp⟩
  | cons idx rest ih =>
    intro acc hlt hok
    have hidx : idx < acc.length := hlt idx (List.mem_cons_self _ _)
    have hchunk : evaluateChunk rawOracle (chunks.getD idx []) = .ok (g idx) :=
      hok idx (List.mem_cons_self _ _)
    obtain ⟨res, hres, hlen, hget⟩ :=
      ih (acc.set idx (some (g idx)))
        (fun j hj => by rw [List.length_set]; exact hlt j (List.mem_cons_of_mem _ hj))
        (fun j hj => hok j (List.mem_cons_of_mem _ hj))
    refine ⟨res, ?_, by rw [hlen, List.length_set], ?_⟩
    · show (do
        let r ← evaluateChunk rawOracle (chunks.getD idx [])
        collectResults rawOracle chunks rest (acc.set idx (some r))) = .ok res
      rw [hchunk]
      exact hres
    · intro i hi
      have hi' : i < (acc.set idx (some (g idx))).length := by
        rw [List.length_set]; exact hi
      rw [hget i hi']
      by_cases hmem : i ∈ rest
      · simp [hmem, List.mem_cons_of_mem _ hmem]
      · by_cases heq : i = idx
        · subst heq
          simp only [hmem, if_false, List.mem_cons, or_false]
          rw [List.getD_eq_getElem _ _ hi', List.getElem_set_self]
          simp
        · have : i ∉ (idx :: rest) := by
            intro hc
            rcases List.mem_cons.mp hc with h1 | h2
            · exact heq h1
            · exact hmem h2
          simp only [hmem, if_false, this, if_false]
          rw [List.getD_eq_getElem _ _ hi', List.getElem_set_ne (fun h => heq h.symm),
            List.getD_eq_getElem _ _ hi]

theorem collectResults_error (rawOracle : List Requirement → Except String RawPayload)
    (chunks : List (List Requirement)) :
    ∀ (order : List Nat) (acc : List (Option (List RequirementScore))) (idx : Nat),
      idx ∈ order →
      (∀ v, evaluateChunk rawOracle (chunks.getD idx []) ≠ .ok v) →
      ∀ res, collectResults rawOracle chunks order acc ≠ .ok res := by
  intro order
  induction order with
  | nil =>
    intro acc idx hmem
    simp at hmem
  | cons h rest ih =>
    intro acc idx hmem herr res hok
    rcases hch : evaluateChunk rawOracle (chunks.getD h []) with e | v
    · have : collectResults rawOracle chunks (h :: rest) acc = .error e := by
        show (do
          let r ← evaluateChunk rawOracle (chunks.getD h [])
          collectResults rawOracle chunks rest (acc.set h (some r))) = .error e
        rw [hch]; rfl
      rw [this] at hok
      exact Except.noConfusion hok
    · rcases List.mem_cons.mp hmem with h1 | h2
      · subst h1
        exact herr v hch
      · have : collectResults rawOracle chunks (h :: rest) acc
            = collectResults rawOracle chunks rest (acc.set h (some v)) := by
          show (do
            let r ← evaluateChunk rawOracle (chunks.getD h [])
            collectResults rawOracle chunks rest (acc.set h (some r))) = _
          rw [hch]; rfl
        rw [this] at hok
        exact ih (acc.set h (some v)) idx h2 herr res hok

theorem map_range_getD {α β : Type} (dflt : α) (F : α → β) :
    ∀ l : List α,
      (List.range l.length).map (fun i => F (l.getD i dflt)) = l.map F := by
  intro l
  induction l with
  | nil => rfl
  | cons x xs ih =>
    rw [List.length_cons, List.range_succ_eq_map, List.map_cons, List.map_map]
    simp only [List.getD_cons_zero]
    have hfun : ((fun i => F ((x :: xs).getD i dflt)) ∘ Nat.succ)
        = (fun i => F (xs.getD i dflt)) := by
      funext i
      simp
    rw [hfun, ih, List.map_cons]

/-- Dispatch success: when every chunk call succeeds and the completion
order is a permutation of the chunk indices, the dispatcher returns the
per-chunk results concatenated in chunk index order. -/
theorem runLLMEvaluation_ok (rawOracle : List Requirement → Except String RawPayload)
    (doc : RequirementsDoc) (g : Nat → List RequirementScore) (order : List Nat)
    (hne : doc.requirements ≠ [])
    (hperm : order.Perm (List.range (chunksOf CHUNK_SIZE doc.requirements).length))
    (hok : ∀ idx, idx < (chunksOf CHUNK_SIZE doc.requirements).length →
      evaluateChunk rawOracle ((chunksOf CHUNK_SIZE doc.requirements).getD idx [])
        = .ok (g idx)) :
    runLLMEvaluation rawOracle order doc
      = .ok (((List.range (chunksOf CHUNK_SIZE doc.requirements).length).map g).flatten) := by
  have hcs : 1 ≤ CHUNK_SIZE := by decide
  set chunks := chunksOf CHUNK_SIZE doc.requirements with hchunks
  have hne' : chunks ≠ [] := chunksOf_ne_nil_of_ne_nil CHUNK_SIZE hcs _ hne
  have hlen0 : ¬ chunks.length = 0 := fun h => hne' (List.length_eq_zero.mp h)
  have hmemlt : ∀ idx ∈ order, idx < (List.replicate chunks.length
      (none : Option (List RequirementScore))).length := by
    intro idx hidx
    rw [List.length_replicate]
    exact List.mem_range.mp (hperm.mem_iff.mp hidx)
  obtain ⟨res, hres, hlen, hget⟩ :=
    collectResults_ok rawOracle chunks g order
      (List.replicate chunks.length none) hmemlt
      (fun idx hidx =>
        hok idx (List.mem_range.mp (hperm.mem_iff.mp hidx)))
  have hreslen : res.length = chunks.length := by
    rw [hlen, List.length_replicate]
  have hresval : res = (List.range chunks.length).map (fun i => some (g i)) := by
    apply list_eq_of_getD none
    · rw [hreslen, List.length_map, List.length_range]
    · intro i hi
      have hi' : i < chunks.length := by rwa [hreslen] at hi
      have hmem : i ∈ order := hperm.mem_iff.mpr (List.mem_range.mpr hi')
      rw [hget i (by rwa [List.length_replicate])]
      have hi2 : i < ((List.range chunks.length).map (fun i => some (g i))).length := by
        rw [List.length_map, List.length_range]; exact hi'
      rw [List.getD_eq_getElem _ _ hi2]
      simp [hmem]
  show (if chunks.length = 0 then
      Except.error "ValueError: max_workers must be greater than 0"
    else do
      let slots ← collectResults rawOracle chunks order
        (List.replicate chunks.length none)
      Except.ok ((slots.map (fun o => o.getD [])).flatten)) = _
  rw [if_neg hlen0, hres]
  show Except.ok ((res.map (fun o => o.getD [])).flatten) = _
  rw [hresval, List.map_map]
  rfl

/-! ### Normalizer validity lemmas -/

theorem normalizeScore_valid (r : RawScore) (s : RequirementScore)
    (h : normalizeScore r = .ok s) : ScoreValid s := by
  obtain ⟨rid, rt, m, c, j, fr, ev⟩ := r
  rcases rid with _ | rid
  · exact Except.noConfusion h
  · rcases m with _ | m
    · exact Except.noConfusion h
    · dsimp [normalizeScore] at h
      by_cases hc : 0 ≤ c.getD (1/2) ∧ c.getD (1/2) ≤ 1
      · rw [if_pos hc] at h
        cases h
        exact hc
      · rw [if_neg hc] at h
        exact Except.noConfusion h

theorem normalizeScores_valid :
    ∀ (l : List RawScore) (out : List RequirementScore),
      normalizeScores l = .ok out → ∀ s ∈ out, ScoreValid s := by
  intro l
  induction l with
  | nil =>
    intro out h s hs
    cases h
    simp at hs
  | cons r rs ih =>
    intro out h s hs
    rcases h0 : normalizeScore r with e | s0
    · rw [normalizeScores, h0] at h
      exact Except.noConfusion h
    · rcases h1 : normalizeScores rs with e | rest
      · rw [normalizeScores, h0, h1] at h
        exact Except.noConfusion h
      · rw [normalizeScores, h0, h1] at h
        cases h
        rcases List.mem_cons.mp hs with h2 | h2
        · subst h2
          exact normalizeScore_valid r s h0
        · exact ih rest h1 s h2

theorem evaluateChunk_valid (rawOracle : List Requirement → Except String RawPayload)
    (c : List Requirement) (out : List RequirementScore)
    (h : evaluateChunk rawOracle c = .ok out) : ∀ s ∈ out, ScoreValid s := by
  rcases h0 : rawOracle c with e | p
  · rw [evaluateChunk, h0] at h
    exact Except.noConfusion h
  · rw [evaluateChunk, h0] at h
    exact normalizeScores_valid _ out h

theorem collectResults_valid (rawOracle : List Requirement → Except String RawPayload)
    (chunks : List (List Requirement)) :
    ∀ (order : List Nat) (acc res : List (Option (List RequirementScore))),
      (∀ o ∈ acc, ∀ l, o = some l → ∀ s ∈ l, ScoreValid s) →
      collectResults rawOracle chunks order acc = .ok res →
      ∀ o ∈ res, ∀ l, o = some l → ∀ s ∈ l, ScoreValid s := by
  intro order
  induction order with
  | nil =>
    intro acc res hacc h
    cases h
    exact hacc
  | cons idx rest ih =>
    intro acc res hacc h
    rcases h0 : evaluateChunk rawOracle (chunks.getD idx []) with e | v
    · rw [show collectResults rawOracle chunks (idx :: rest) acc = (do
          let r ← evaluateChunk rawOracle (chunks.getD idx [])
          collectResults rawOracle chunks rest (acc.set idx (some r))) from rfl,
        h0] at h
      exact Except.noConfusion h
    · rw [show collectResults rawOracle chunks (idx :: rest) acc = (do
          let r ← evaluateChunk rawOracle (chunks.getD idx [])
          collectResults rawOracle chunks rest (acc.set idx (some r))) from rfl,
        h0] at h
      apply ih (acc.set idx (some v)) res _ h
      intro o ho l hl s hsl
      rcases List.mem_or_eq_of_mem_set ho with h1 | h1
      · exact hacc o h1 l hl s hsl
      · subst h1
        cases hl
        exact evaluateChunk_valid rawOracle _ v h0 s hsl

theorem runLLMEvaluation_valid (rawOracle : List Requirement → Except String RawPayload)
    (order : List Nat) (doc : RequirementsDoc) (scores : List RequirementScore)
    (h : runLLMEvaluation rawOracle order doc = .ok scores) :
    ∀ s ∈ scores, ScoreValid s := by
  intro s hs
  unfold runLLMEvaluation at h
  by_cases h0 : (chunksOf CHUNK_SIZE doc.requirements).length = 0
  · rw [if_pos h0] at h
    exact Except.noConfusion h
  · rw [if_neg h0] at h
    rcases h1 : collectResults rawOracle (chunksOf CHUNK_SIZE doc.requirements) order
        (List.replicate (chunksOf CHUNK_SIZE doc.requirements).length none) with e | slots
    · rw [h1] at h
      exact Except.noConfusion h
    · rw [h1] at h
      cases h
      obtain ⟨l, hl, hsl⟩ := List.mem_flatten.mp hs
      obtain ⟨o, ho, hol⟩ := List.mem_map.mp hl
      rcases o with _ | l'
      · rw [← hol] at hsl
        simp at hsl
      · have hvalid := collectResults_valid rawOracle _ order _ slots
          (fun o ho' l'' hl'' => by
            have := List.eq_of_mem_replicate ho'
            subst this
            exact Option.noConfusion hl'')
          h1 (some l') ho l' rfl
        apply hvalid
        rw [← hol] at hsl
        simpa using hsl

/-! ### Weighted-score lemmas -/

theorem weighted_foldl_eq (doc : RequirementsDoc) :
    ∀ (l : List RequirementScore) (a b : ℚ),
      l.foldl
        (fun (acc : ℚ × ℚ) s =>
          let w := scoreWeight doc s
          (acc.1 + w, if s.met then acc.2 + w * s.confidence else acc.2))
        (a, b)
      = (a + (l.map (scoreWeight doc)).sum,
         b + (l.map (fun s =>
            if s.met then scoreWeight doc s * s.confidence else 0)).sum) := by
  intro l
  induction l with
  | nil =>
    intro a b
    simp
  | cons x xs ih =>
    intro a b
    rw [List.foldl_cons, ih, List.map_cons, List.sum_cons, List.map_cons, List.sum_cons]
    rcases Bool.eq_false_or_eq_true x.met with hm | hm <;>
      simp only [hm, Bool.false_eq_true, if_false, if_true, Prod.mk.injEq] <;>
      exact ⟨by ring, by ring⟩

/-- The weighted score as sums over the score list: each score adds its
weight to the total; a met score adds `weight * confidence` to the
earned sum; an unmet score adds nothing. -/
theorem computeWeightedScore_eq (scores : List RequirementScore) (doc : RequirementsDoc) :
    computeWeightedScore scores doc =
      (if (scores.map (scoreWeight doc)).sum = 0 then 0
       else round1
         ((scores.map (fun s =>
            if s.met then scoreWeight doc s * s.confidence else 0)).sum
          / (scores.map (scoreWeight doc)).sum * 100)) := by
  unfold computeWeightedScore
  rw [weighted_foldl_eq doc scores 0 0]
  simp

theorem typeWeightsGet_pos (t : String) : 0 < typeWeightsGet t := by
  unfold typeWeightsGet
  split_ifs <;> norm_num

theorem priorityWeightsGet_pos (p : String) : 0 < priorityWeightsGet p := by
  unfold priorityWeightsGet
  split_ifs <;> norm_num

theorem scoreWeight_pos (doc : RequirementsDoc) (s : RequirementScore) :
    0 < scoreWeight doc s :=
  mul_pos (typeWeightsGet_pos _) (priorityWeightsGet_pos _)

theorem round1_mono {x y : ℚ} (h : x ≤ y) : round1 x ≤ round1 y := by
  rw [round1_eq_round, round1_eq_round]
  have hr : round (x * 10) ≤ round (y * 10) := by
    rw [round_eq, round_eq]
    exact Int.floor_mono (by linarith)
  have hq : ((round (x * 10) : ℤ) : ℚ) ≤ ((round (y * 10) : ℤ) : ℚ) := by
    exact_mod_cast hr
  linarith

theorem round1_zero : round1 0 = 0 := by
  rw [round1_eq_round]
  norm_num

theorem round1_hundred : round1 100 = 100 := by
  rw [round1_eq_round]
  rw [show ((100 : ℚ) * 10) = ((1000 : ℤ) : ℚ) by norm_num, round_intCast]
  norm_num

theorem round1_nonneg {x : ℚ} (h : 0 ≤ x) : 0 ≤ round1 x := by
  have := round1_mono h
  rwa [round1_zero] at this

theorem round1_le_hundred {x : ℚ} (h : x ≤ 100) : round1 x ≤ 100 := by
  have := round1_mono h
  rwa [round1_hundred] at this

/-- A rational with one decimal digit is a fixed point of `round1`. -/
theorem round1_fix {x : ℚ} (h : ∃ n : ℤ, x * 10 = (n : ℚ)) : round1 x = x := by
  obtain ⟨n, hn⟩ := h
  rw [round1_eq_round]
  rw [hn, round_intCast]
  have : x = (n : ℚ) / 10 := by
    field_simp at hn ⊢
    linarith
  rw [this]

theorem computeWeightedScore_den (scores : List RequirementScore)
    (doc : RequirementsDoc) :
    ∃ n : ℤ, computeWeightedScore scores doc * 10 = (n : ℚ) := by
  rw [computeWeightedScore_eq]
  by_cases h : (scores.map (scoreWeight doc)).sum = 0
  · rw [if_pos h]
    exact ⟨0, by norm_num⟩
  · rw [if_neg h]
    refine ⟨round ((scores.map (fun s =>
        if s.met then scoreWeight doc s * s.confidence else 0)).sum
      / (scores.map (scoreWeight doc)).sum * 100 * 10), ?_⟩
    rw [round1_eq_round]
    field_simp

/-- Bounds on the weighted score under the pydantic confidence bound. -/
theorem computeWeightedScore_bounds (scores : List RequirementScore)
    (doc : RequirementsDoc) (h : ∀ s ∈ scores, ScoreValid s) :
    0 ≤ computeWeightedScore scores doc ∧ computeWeightedScore scores doc ≤ 100 := by
  rw [computeWeightedScore_eq]
  by_cases h0 : (scores.map (scoreWeight doc)).sum = 0
  · rw [if_pos h0]
    norm_num
  · rw [if_neg h0]
    have hT0 : 0 ≤ (scores.map (scoreWeight doc)).sum := by
      apply List.sum_nonneg
      intro x hx
      obtain ⟨s, _, rfl⟩ := List.mem_map.mp hx
      exact le_of_lt (scoreWeight_pos doc s)
    have hTpos : 0 < (scores.map (scoreWeight doc)).sum :=
      lt_of_le_of_ne hT0 (Ne.symm h0)
    have hE0 : 0 ≤ (scores.map (fun s =>
        if s.met then scoreWeight doc s * s.confidence else 0)).sum := by
      apply List.sum_nonneg
      intro x hx
      obtain ⟨s, hs, rfl⟩ := List.mem_map.mp hx
      by_cases hm : s.met
      · simp only [hm, if_true]
        exact mul_nonneg (le_of_lt (scoreWeight_pos doc s)) (h s hs).1
      · simp [hm]
    have hET : (scores.map (fun s =>
        if s.met then scoreWeight doc s * s.confidence else 0)).sum
        ≤ (scores.map (scoreWeight doc)).sum := by
      apply List.sum_le_sum
      intro s hs
      by_cases hm : s.met
      · simp only [hm, if_true]
        exact mul_le_of_le_one_right (le_of_lt (scoreWeight_pos doc s)) (h s hs).2
      · simp only [hm, if_false]
        exact le_of_lt (scoreWeight_pos doc s)
    constructor
    · apply round1_nonneg
      apply mul_nonneg _ (by norm_num : (0:ℚ) ≤ 100)
      exact div_nonneg hE0 hT0
    · apply round1_le_hundred
      have hdiv : (scores.map (fun s =>
          if s.met then scoreWeight doc s * s.confidence else 0)).sum
          / (scores.map (scoreWeight doc)).sum ≤ 1 :=
        (div_le_one hTpos).mpr hET
      nlinarith [hdiv]

theorem scoreCapsGet_bounds (n : Nat) :
    40 ≤ scoreCapsGet n ∧ scoreCapsGet n ≤ 100 := by
  unfold scoreCapsGet
  split_ifs <;> norm_num

theorem scoreCapsGet_den (n : Nat) : ∃ m : ℤ, scoreCapsGet n * 10 = (m : ℚ) := by
  unfold scoreCapsGet
  split_ifs
  · exact ⟨1000, by norm_num⟩
  · exact ⟨750, by norm_num⟩
  · exact ⟨600, by norm_num⟩
  · exact ⟨400, by norm_num⟩

theorem min_den {x y : ℚ} (hx : ∃ n : ℤ, x * 10 = (n : ℚ))
    (hy : ∃ n : ℤ, y * 10 = (n : ℚ)) : ∃ n : ℤ, min x y * 10 = (n : ℚ) := by
  rcases le_total x y with h | h
  · rwa [min_eq_left h]
  · rwa [min_eq_right h]

theorem computeMandatoryGate_cap (scores : List RequirementScore)
    (doc : RequirementsDoc) :
    (computeMandatoryGate scores doc).score_cap
      = scoreCapsGet (computeMandatoryGate scores doc).failures.length := rfl

theorem normalizeScores_error (e : String) :
    ∀ (l : List RawScore) (r : RawScore), r ∈ l → normalizeScore r = .error e →
      ∀ out, normalizeScores l ≠ .ok out := by
  intro l
  induction l with
  | nil =>
    intro r hr
    simp at hr
  | cons a rest ih =>
    intro r hr herr out hok
    rcases List.mem_cons.mp hr with h1 | h1
    · subst h1
      rw [normalizeScores, herr] at hok
      exact Except.noConfusion hok
    · rcases ha : normalizeScore a with e' | s0
      · rw [normalizeScores, ha] at hok
        exact Except.noConfusion hok
      · rcases hrest : normalizeScores rest with e' | lst
        · rw [normalizeScores, ha, hrest] at hok
          exact Except.noConfusion hok
        · exact ih r h1 herr lst hrest

/-! ### Concrete scenarios from the spec -/

/-- The end-to-end scenario document: `[{id: R1, type: mandatory,
priority: High}, {id: R2, type: functional, priority: Medium}]`. -/
def doc2 : RequirementsDoc :=
  ⟨some "RFP",
   [⟨"R1", "mandatory", "t1", "d1", "High", none, none⟩,
    ⟨"R2", "functional", "t2", "d2", "Medium", none, none⟩]⟩

/-- Oracle payload for the scenario: R1 met=false, R2 met=true with
confidence 0.8. -/
def rawPayload2 : RawPayload :=
  ⟨some [⟨some "R1", some "mandatory", some false, some (9/10),
          some "not addressed", some "VAGUE_CLAIM", some []⟩,
         ⟨some "R2", some "functional", some true, some (4/5),
          some "covered", none, some []⟩]⟩

/-- Scenario oracle: every chunk call returns `rawPayload2`. -/
def oracle2 : List Requirement → Except String RawPayload :=
  fun _ => .ok rawPayload2

/-- Normal form of the scenario score for R1. -/
def scoreR1 : RequirementScore :=
  ⟨"R1", "mandatory", false, 9/10, "not addressed", some "VAGUE_CLAIM", []⟩

/-- Normal form of the scenario score for R2. -/
def scoreR2 : RequirementScore :=
  ⟨"R2", "functional", true, 4/5, "covered", none, []⟩

/-- The evaluation the engine produces on the scenario. -/
def ev2 : ProposalEvaluation :=
  ⟨"VendorX", ⟨false, ["R1"], 75⟩, 29/2, 29/2, [scoreR1, scoreR2],
   "SEEK CLARIFICATION"⟩

instance exceptDecEq {ε α : Type} [DecidableEq ε] [DecidableEq α] :
    DecidableEq (Except ε α) := fun x y =>
  match x, y with
  | .error e1, .error e2 =>
    match decEq e1 e2 with
    | isTrue h => isTrue (by rw [h])
    | isFalse h => isFalse (fun hc => h (Except.error.inj hc))
  | .error _, .ok _ => isFalse (fun hc => Except.noConfusion hc)
  | .ok _, .error _ => isFalse (fun hc => Except.noConfusion hc)
  | .ok a, .ok b =>
    match decEq a b with
    | isTrue h => isTrue (by rw [h])
    | isFalse h => isFalse (fun hc => h (Except.ok.inj hc))


/-! ### Claim theorems -/

/-- C1: the mandatory gate records, in score-list order, the ids of
exactly those scores whose resolved type (document lookup by id, falling
back to the score's carried `requirement_type`) is `mandatory` and whose
`met` is false; `passed` holds iff there are no failures; and
`score_cap` is 100.0, 75.0, 60.0 for failure counts 0, 1, 2 and 40.0
for any count at least 3. -/
theorem mandatory_gate_spec (scores : List RequirementScore) (doc : RequirementsDoc) :
    (computeMandatoryGate scores doc).failures
      = (scores.filter (fun s =>
          dictGet (typeMap doc) s.requirement_id s.requirement_type = "mandatory"
            ∧ s.met = false)).map (fun s => s.requirement_id)
    ∧ ((computeMandatoryGate scores doc).passed = true
        ↔ (computeMandatoryGate scores doc).failures = [])
    ∧ (computeMandatoryGate scores doc).score_cap
        = (if (computeMandatoryGate scores doc).failures.length = 0 then 100
           else if (computeMandatoryGate scores doc).failures.length = 1 then 75
           else if (computeMandatoryGate scores doc).failures.length = 2 then 60
           else 40) := by
  refine ⟨?_, ?_, rfl⟩
  · show (scores.filter _).map _ = (scores.filter _).map _
    congr 1
    apply List.filter_congr
    intro s _
    simp only [Bool.not_eq_true]
  · simp [computeMandatoryGate, List.length_eq_zero]

unseal Rat.mul Rat.inv Rat.add Rat.sub in
/-- C2: the weighted scorer returns `round1 (earned / total * 100)` where
every score adds its weight (type weight times priority weight) to
`total` and, when met, `weight * confidence` to `earned`; an unmet score
adds nothing to `earned` regardless of confidence; a zero total weight
gives 0.  On the end-to-end scenario (R1 mandatory/High unmet, R2
functional/Medium met with confidence 0.8) the engine produces
`raw_score = 14.5`, gate cap 75.0, final score 14.5 and recommendation
SEEK CLARIFICATION. -/
theorem weighted_score_spec (scores : List RequirementScore) (doc : RequirementsDoc) :
    (computeWeightedScore scores doc =
      (if (scores.map (scoreWeight doc)).sum = 0 then 0
       else round1
         ((scores.map (fun s =>
            if s.met then scoreWeight doc s * s.confidence else 0)).sum
          / (scores.map (scoreWeight doc)).sum * 100)))
    ∧ evaluateProposal oracle2 [0] "VendorX" doc2
        = .ok ⟨"VendorX", ⟨false, ["R1"], 75⟩, 29/2, 29/2, [scoreR1, scoreR2],
               "SEEK CLARIFICATION"⟩ :=
  ⟨computeWeightedScore_eq scores doc, by decide⟩

/-- C3: the recommendation is decided in precedence order: at least two
mandatory failures give REJECT; else one failure or a final score below
70 gives SEEK CLARIFICATION; else a final score of at least 85 gives
AWARD; else SEEK CLARIFICATION.  A final score of 95 with two mandatory
failures yields REJECT. -/
theorem recommendation_spec (gate : MandatoryGateResult) (final_score : ℚ) :
    (getRecommendation gate final_score =
      (if 2 ≤ gate.failures.length then "REJECT"
       else if gate.failures.length = 1 ∨ final_score < 70 then "SEEK CLARIFICATION"
       else if 85 ≤ final_score then "AWARD"
       else "SEEK CLARIFICATION"))
    ∧ getRecommendation ⟨false, ["M1", "M2"], 60⟩ 95 = "REJECT" :=
  ⟨rfl, by decide⟩

/-- C4: every evaluation the engine returns satisfies
`0 ≤ match_percentage ≤ raw_score ≤ 100` (the cap only lowers, never
raises), and with zero mandatory failures the cap is 100.0 and
`match_percentage = raw_score`. -/
theorem evaluation_bounds (rawOracle : List Requirement → Except String RawPayload)
    (order : List Nat) (vendor : String) (doc : RequirementsDoc)
    (ev : ProposalEvaluation)
    (h : evaluateProposal rawOracle order vendor doc = .ok ev) :
    0 ≤ ev.match_percentage ∧ ev.match_percentage ≤ ev.raw_score
    ∧ ev.raw_score ≤ 100
    ∧ (ev.mandatory_gate.failures.length = 0 →
        ev.mandatory_gate.score_cap = 100 ∧ ev.match_percentage = ev.raw_score) := by
  unfold evaluateProposal at h
  rcases hrun : runLLMEvaluation rawOracle order doc with e | raws
  · rw [hrun] at h
    exact Except.noConfusion h
  · rw [hrun] at h
    have hev := (Except.ok.inj h).symm
    subst hev
    have hvalid := runLLMEvaluation_valid rawOracle order doc raws hrun
    have hb := computeWeightedScore_bounds raws doc hvalid
    have hden := computeWeightedScore_den raws doc
    have hcapden := scoreCapsGet_den
      (computeMandatoryGate raws doc).failures.length
    have hcapb := scoreCapsGet_bounds
      (computeMandatoryGate raws doc).failures.length
    set R := computeWeightedScore raws doc with hR
    set cap := scoreCapsGet (computeMandatoryGate raws doc).failures.length
      with hcap
    have hrfix : round1 R = R := round1_fix hden
    have hminfixed : round1 (pymin R cap) = pymin R cap := by
      apply round1_fix
      rw [pymin_eq_min]
      exact min_den hden hcapden
    refine ⟨?_, ?_, ?_, ?_⟩
    · show 0 ≤ round1 (pymin R cap)
      rw [hminfixed, pymin_eq_min]
      exact le_min hb.1 (le_trans (by norm_num) hcapb.1)
    · show round1 (pymin R cap) ≤ round1 R
      rw [hminfixed, hrfix, pymin_eq_min]
      exact min_le_left _ _
    · show round1 R ≤ 100
      rw [hrfix]
      exact hb.2
    · intro h0
      constructor
      · show scoreCapsGet (computeMandatoryGate raws doc).failures.length = 100
        have : (computeMandatoryGate raws doc).failures.length = 0 := h0
        rw [this]
        rfl
      · show round1 (pymin R cap) = round1 R
        rw [hminfixed, hrfix, pymin_eq_min]
        apply min_eq_left
        have hcap100 : cap = 100 := by
          rw [hcap]
          have : (computeMandatoryGate raws doc).failures.length = 0 := h0
          rw [this]
          rfl
        rw [hcap100]
        exact hb.2

unseal Rat.mul Rat.inv Rat.add Rat.sub in
/-- Witness for C4 at the end-to-end scenario input. -/
theorem evaluation_bounds_witness :
    0 ≤ ev2.match_percentage ∧ ev2.match_percentage ≤ ev2.raw_score
    ∧ ev2.raw_score ≤ 100
    ∧ (ev2.mandatory_gate.failures.length = 0 →
        ev2.mandatory_gate.score_cap = 100
          ∧ ev2.match_percentage = ev2.raw_score) :=
  evaluation_bounds oracle2 [0] "VendorX" doc2 ev2 (by decide)

theorem dictGet_eq_default {β : Type} (pairs : List (String × β)) (k : String)
    (d : β) (h : ∀ p ∈ pairs, p.1 ≠ k) : dictGet pairs k d = d := by
  unfold dictGet
  rw [List.find?_eq_none.mpr]
  intro p hp
  simp only [beq_iff_eq]
  exact h p (List.mem_reverse.mp hp)

/-- Weight resolution as the spec's words describe it for claim C5
(section 4.4): the type of an unresolved id falls back to the score's
own carried `requirement_type`.  Comparison point only; the source
(`_compute_weighted_score`, line 162) instead falls back to the fixed
string "functional". -/
def scoreWeightSpec (doc : RequirementsDoc) (s : RequirementScore) : ℚ :=
  typeWeightsGet (dictGet (typeMap doc) s.requirement_id s.requirement_type)
    * priorityWeightsGet (dictGet (priorityMap doc) s.requirement_id "Medium")

/-- The weighted scorer as claim C5 describes it, using
`scoreWeightSpec` in place of the source's weight resolution. -/
def computeWeightedScoreSpec (scores : List RequirementScore)
    (doc : RequirementsDoc) : ℚ :=
  let acc := scores.foldl
    (fun (acc : ℚ × ℚ) s =>
      let w := scoreWeightSpec doc s
      (acc.1 + w, if s.met then acc.2 + w * s.confidence else acc.2))
    (0, 0)
  if acc.1 = 0 then 0 else round1 (acc.2 / acc.1 * 100)

/-- A document declaring only R2 (functional, Medium). -/
def doc5 : RequirementsDoc :=
  ⟨none, [⟨"R2", "functional", "t", "d", "Medium", none, none⟩]⟩

/-- A score whose id "X" is unresolved and whose carried type is
mandatory. -/
def scoreX5 : RequirementScore := ⟨"X", "mandatory", true, 1, "", none, []⟩

/-- A resolved but unmet score for R2. -/
def scoreR2f5 : RequirementScore := ⟨"R2", "functional", false, 1, "", none, []⟩

unseal Rat.mul Rat.inv Rat.add Rat.sub in
/-- Counterexample to C5: on a score list containing an unresolved id
with carried type mandatory, the source's scorer weighs it as
functional/Medium (score 50.0), not by its carried type (which would
give 75.0). -/
theorem weighted_fallback_counterexample :
    computeWeightedScore [scoreX5, scoreR2f5] doc5 = 50
    ∧ computeWeightedScoreSpec [scoreX5, scoreR2f5] doc5 = 75
    ∧ computeWeightedScore [scoreX5, scoreR2f5] doc5
        ≠ computeWeightedScoreSpec [scoreX5, scoreR2f5] doc5 := by
  refine ⟨by decide, by decide, by decide⟩

/-- C5 amended: the weighted scorer ignores the score's carried
`requirement_type` entirely; for an unresolved requirement_id the weight
uses the fixed default type "functional" and the default priority
"Medium". -/
theorem weighted_fallback_amended (scores : List RequirementScore)
    (doc : RequirementsDoc) (t : String) (s : RequirementScore) :
    (computeWeightedScore (scores.map (fun x => { x with requirement_type := t })) doc
       = computeWeightedScore scores doc)
    ∧ ((∀ r ∈ doc.requirements, r.id ≠ s.requirement_id) →
        scoreWeight doc s
          = typeWeightsGet "functional" * priorityWeightsGet "Medium") := by
  constructor
  · rw [computeWeightedScore_eq, computeWeightedScore_eq, List.map_map, List.map_map]
    have h1 : (scoreWeight doc ∘ fun x => { x with requirement_type := t })
        = scoreWeight doc := funext fun x => rfl
    have h2 : ((fun s => if s.met then scoreWeight doc s * s.confidence else 0)
          ∘ fun x => { x with requirement_type := t })
        = (fun s => if s.met then scoreWeight doc s * s.confidence else 0) :=
      funext fun x => rfl
    rw [h1, h2]
  · intro h
    unfold scoreWeight
    rw [dictGet_eq_default, dictGet_eq_default]
    · intro p hp
      obtain ⟨r, hr, rfl⟩ := List.mem_map.mp hp
      exact h r hr
    · intro p hp
      obtain ⟨r, hr, rfl⟩ := List.mem_map.mp hp
      exact h r hr

/-- Witness for the amended C5 at a concrete unresolved score. -/
theorem weighted_fallback_amended_witness :
    scoreWeight doc5 scoreX5
      = typeWeightsGet "functional" * priorityWeightsGet "Medium" :=
  (weighted_fallback_amended [] doc5 "x" scoreX5).2 (by decide)

/-- C6: the normalizer defaults absent optional fields
(`requirement_type` to "functional", `confidence` to 0.5,
`justification` to the empty string, `evidences` to the empty sequence)
and raises a hard error for a record missing `requirement_id` or `met`;
such a record is never silently skipped from a payload. -/
theorem normalizer_spec (rid rt : String) (m : Bool) (c : ℚ) (j : String)
    (fr : Option String) (ev : List RawEvidence) (r : RawScore) (p : RawPayload) :
    (0 ≤ c → c ≤ 1 →
      normalizeScore ⟨some rid, some rt, some m, some c, some j, fr, some ev⟩
        = .ok ⟨rid, rt, m, c, j, fr, ev.map normalizeEvidence⟩)
    ∧ normalizeScore ⟨some rid, none, some m, none, none, fr, none⟩
        = .ok ⟨rid, "functional", m, 1/2, "", fr, []⟩
    ∧ normalizeScore ⟨none, r.requirement_type, r.met, r.confidence,
        r.justification, r.failure_reason, r.evidences⟩
        = .error "KeyError: requirement_id"
    ∧ normalizeScore ⟨some rid, r.requirement_type, none, r.confidence,
        r.justification, r.failure_reason, r.evidences⟩
        = .error "KeyError: met"
    ∧ (r ∈ p.scores.getD [] →
        normalizeScore r = .error "KeyError: requirement_id" →
        ∀ out, normalizeRawPayload p ≠ .ok out) := by
  refine ⟨?_, ?_, rfl, rfl, ?_⟩
  · intro h0 h1
    dsimp only [normalizeScore, Option.getD]
    rw [if_pos ⟨h0, h1⟩]
  · dsimp only [normalizeScore, Option.getD]
    rw [if_pos (by norm_num)]
    rfl
  · intro hmem herr out
    exact normalizeScores_error "KeyError: requirement_id"
      (p.scores.getD []) r hmem herr out

/-- A raw record missing its `requirement_id`. -/
def rawMissingId : RawScore := ⟨none, none, some true, none, none, none, none⟩

/-- Witness for C6: a fully populated record normalizes with its own
values, and a payload holding a record without `requirement_id` is
rejected rather than returned without that record. -/
theorem normalizer_spec_witness :
    normalizeScore ⟨some "R9", some "mandatory", some true, some (9/10),
        some "j", none, some []⟩
      = .ok ⟨"R9", "mandatory", true, 9/10, "j", none, []⟩
    ∧ normalizeRawPayload ⟨some [rawMissingId]⟩ ≠ .ok [] :=
  ⟨(normalizer_spec "R9" "mandatory" true (9/10) "j" none [] rawMissingId
      ⟨some [rawMissingId]⟩).1 (by norm_num) (by norm_num),
   (normalizer_spec "R9" "mandatory" true (9/10) "j" none [] rawMissingId
      ⟨some [rawMissingId]⟩).2.2.2.2 (by decide) rfl []⟩

/-- C7: the dispatcher partitions the requirements into contiguous
chunks of at most 15 with only the final chunk smaller (37 requirements
give sizes [15, 15, 7]) and, whatever the completion order of the chunk
futures, returns the per-chunk oracle results concatenated in chunk
index order; when each chunk yields one score per requirement, the
flattened output length equals the requirement count. -/
theorem dispatcher_spec (doc : RequirementsDoc)
    (rawOracle : List Requirement → Except String RawPayload)
    (f : List Requirement → List RequirementScore) (order : List Nat) :
    ((chunksOf CHUNK_SIZE doc.requirements).flatten = doc.requirements)
    ∧ (∀ c ∈ chunksOf CHUNK_SIZE doc.requirements, c.length ≤ CHUNK_SIZE)
    ∧ (∀ i, i + 1 < (chunksOf CHUNK_SIZE doc.requirements).length →
        ((chunksOf CHUNK_SIZE doc.requirements).getD i []).length = CHUNK_SIZE)
    ∧ ((chunksOf CHUNK_SIZE (List.range 37)).map List.length = [15, 15, 7])
    ∧ (doc.requirements ≠ [] →
       order.Perm (List.range (chunksOf CHUNK_SIZE doc.requirements).length) →
       (∀ c, evaluateChunk rawOracle c = .ok (f c)) →
       runLLMEvaluation rawOracle order doc
         = .ok ((chunksOf CHUNK_SIZE doc.requirements).map f).flatten
       ∧ ((∀ c, (f c).length = c.length) →
          (runLLMEvaluation rawOracle order doc).map List.length
            = .ok doc.requirements.length)) := by
  have hcs : 1 ≤ CHUNK_SIZE := by decide
  refine ⟨chunksOf_flatten _ hcs _, chunksOf_mem_length _ hcs _,
    chunksOf_getD_length _ hcs _, by decide, ?_⟩
  intro hne hperm hok
  have hmain := runLLMEvaluation_ok rawOracle doc
    (fun i => f ((chunksOf CHUNK_SIZE doc.requirements).getD i [])) order
    hne hperm (fun idx _ => hok _)
  have hmap : (List.range (chunksOf CHUNK_SIZE doc.requirements).length).map
        (fun i => f ((chunksOf CHUNK_SIZE doc.requirements).getD i []))
      = (chunksOf CHUNK_SIZE doc.requirements).map f :=
    map_range_getD [] f _
  rw [hmap] at hmain
  refine ⟨hmain, ?_⟩
  intro hlen
  rw [hmain]
  show Except.ok (((chunksOf CHUNK_SIZE doc.requirements).map f).flatten.length)
      = Except.ok doc.requirements.length
  congr 1
  rw [List.length_flatten, List.map_map]
  have h1 : (chunksOf CHUNK_SIZE doc.requirements).map (List.length ∘ f)
      = (chunksOf CHUNK_SIZE doc.requirements).map List.length :=
    List.map_congr_left (fun c _ => hlen c)
  rw [h1, ← List.length_flatten, chunksOf_flatten _ hcs]

/-- A plain requirement used to build bulk documents. -/
def req0 : Requirement := ⟨"R", "functional", "t", "d", "Medium", none, none⟩

/-- A 16-requirement document: two chunks of sizes 15 and 1. -/
def doc16 : RequirementsDoc := ⟨none, List.replicate 16 req0⟩

/-- Raw oracle record used by the dispatcher witness. -/
def rawA : RawScore :=
  ⟨some "R", some "functional", some true, some 1, some "", none, some []⟩

/-- Normalized form of `rawA`. -/
def sA : RequirementScore := ⟨"R", "functional", true, 1, "", none, []⟩

/-- Witness oracle: every chunk yields the single record `rawA`. -/
def oracle7 : List Requirement → Except String RawPayload :=
  fun _ => .ok ⟨some [rawA]⟩

/-- Per-chunk normalized result of `oracle7`. -/
def f7 : List Requirement → List RequirementScore := fun _ => [sA]

/-- Witness for C7: two chunks completing out of order ([1, 0]) still
yield the chunk-index-ordered concatenation. -/
theorem dispatcher_spec_witness :
    runLLMEvaluation oracle7 [1, 0] doc16
      = .ok ((chunksOf CHUNK_SIZE doc16.requirements).map f7).flatten :=
  ((dispatcher_spec doc16 oracle7 f7 [1, 0]).2.2.2.2 (by decide) (by decide)
    (fun _ => rfl)).1

/-- C8: if any chunk's oracle call fails, the whole dispatch fails, and
so does the whole evaluate call: no truncated evaluation is produced from
the remaining chunks. -/
theorem chunk_failure_spec (rawOracle : List Requirement → Except String RawPayload)
    (order : List Nat) (vendor : String) (doc : RequirementsDoc)
    (j : Nat) (e : String) (hj : j ∈ order)
    (he : evaluateChunk rawOracle
      ((chunksOf CHUNK_SIZE doc.requirements).getD j []) = .error e) :
    (∀ out, runLLMEvaluation rawOracle order doc ≠ .ok out)
    ∧ (∀ ev, evaluateProposal rawOracle order vendor doc ≠ .ok ev) := by
  have herr : ∀ v, evaluateChunk rawOracle
      ((chunksOf CHUNK_SIZE doc.requirements).getD j []) ≠ .ok v := by
    intro v hv
    rw [he] at hv
    exact Except.noConfusion hv
  have h1 : ∀ out, runLLMEvaluation rawOracle order doc ≠ .ok out := by
    intro out hout
    unfold runLLMEvaluation at hout
    by_cases h0 : (chunksOf CHUNK_SIZE doc.requirements).length = 0
    · rw [if_pos h0] at hout
      exact Except.noConfusion hout
    · rw [if_neg h0] at hout
      rcases hcol : collectResults rawOracle (chunksOf CHUNK_SIZE doc.requirements)
          order (List.replicate (chunksOf CHUNK_SIZE doc.requirements).length none)
        with e' | slots
      · rw [hcol] at hout
        exact Except.noConfusion hout
      · exact collectResults_error rawOracle _ order _ j hj herr slots hcol
  refine ⟨h1, ?_⟩
  intro ev hev
  unfold evaluateProposal at hev
  rcases hrun : runLLMEvaluation rawOracle order doc with e' | raws
  · rw [hrun] at hev
    exact Except.noConfusion hev
  · exact h1 raws hrun

/-- Oracle whose every chunk call raises. -/
def oracle8 : List Requirement → Except String RawPayload :=
  fun _ => .error "boom"

/-- A one-requirement document. -/
def doc1 : RequirementsDoc := ⟨none, [req0]⟩

/-- Witness for C8 with a failing single-chunk dispatch. -/
theorem chunk_failure_spec_witness :
    runLLMEvaluation oracle8 [0] doc1 ≠ .ok [] :=
  (chunk_failure_spec oracle8 [0] "V" doc1 0 "boom" (by decide) rfl).1 []

/-- C9: with an empty requirements sequence the dispatcher builds a
thread pool with zero workers, so the whole evaluate call raises
`ValueError` instead of returning an empty evaluation. -/
theorem empty_requirements_spec (rawOracle : List Requirement → Except String RawPayload)
    (order : List Nat) (vendor : String) (t : Option String) :
    evaluateProposal rawOracle order vendor ⟨t, []⟩
      = .error "ValueError: max_workers must be greater than 0" := rfl

theorem evaluateProposal_of_run (rawOracle : List Requirement → Except String RawPayload)
    (order : List Nat) (vendor : String) (doc : RequirementsDoc)
    (raws : List RequirementScore)
    (h : runLLMEvaluation rawOracle order doc = .ok raws) :
    evaluateProposal rawOracle order vendor doc = .ok
      { vendor_name := vendor
        mandatory_gate := computeMandatoryGate raws doc
        match_percentage := round1 (pymin (computeWeightedScore raws doc)
          (scoreCapsGet (computeMandatoryGate raws doc).failures.length))
        raw_score := round1 (computeWeightedScore raws doc)
        scores := raws
        recommendation := getRecommendation (computeMandatoryGate raws doc)
          (pymin (computeWeightedScore raws doc)
            (scoreCapsGet (computeMandatoryGate raws doc).failures.length)) } := by
  unfold evaluateProposal
  rw [h]
  rfl

/-- C10: a parsed payload without a `scores` key normalizes to an empty
score list with no error; if every chunk comes back like that, the
evaluation has a passed gate, raw score 0.0, match percentage 0.0 and a
SEEK CLARIFICATION recommendation. -/
theorem missing_scores_key_spec (doc : RequirementsDoc) (order : List Nat)
    (vendor : String) :
    (normalizeRawPayload ⟨none⟩ = .ok [])
    ∧ (doc.requirements ≠ [] →
       order.Perm (List.range (chunksOf CHUNK_SIZE doc.requirements).length) →
       (evaluateProposal (fun _ => .ok ⟨none⟩) order vendor doc).map
           (fun ev => (ev.mandatory_gate.passed, ev.mandatory_gate.failures,
             ev.raw_score, ev.match_percentage, ev.recommendation))
         = .ok (true, ([] : List String), (0 : ℚ), (0 : ℚ),
                "SEEK CLARIFICATION")) := by
  refine ⟨rfl, ?_⟩
  intro hne hperm
  have hflat : ∀ L : List Nat,
      (L.map (fun _ => ([] : List RequirementScore))).flatten = [] := by
    intro L
    induction L with
    | nil => rfl
    | cons a l ih => simp [ih]
  have hmain := runLLMEvaluation_ok (fun _ => .ok ⟨none⟩) doc
    (fun _ => []) order hne hperm (fun _ _ => rfl)
  rw [hflat] at hmain
  rw [evaluateProposal_of_run (fun _ => .ok ⟨none⟩) order vendor doc [] hmain]
  have hgate : computeMandatoryGate [] doc = ⟨true, [], 100⟩ := rfl
  have hw : computeWeightedScore [] doc = 0 := rfl
  show Except.ok ((computeMandatoryGate [] doc).passed,
      (computeMandatoryGate [] doc).failures,
      round1 (computeWeightedScore [] doc),
      round1 (pymin (computeWeightedScore [] doc)
        (scoreCapsGet (computeMandatoryGate [] doc).failures.length)),
      getRecommendation (computeMandatoryGate [] doc)
        (pymin (computeWeightedScore [] doc)
          (scoreCapsGet (computeMandatoryGate [] doc).failures.length))) = _
  rw [hgate, hw]
  have hp : pymin (0 : ℚ) (scoreCapsGet ([] : List String).length) = 0 := rfl
  rw [hp, round1_zero]
  rfl

/-- Witness for C10 on a one-requirement document. -/
theorem missing_scores_key_spec_witness :
    (evaluateProposal (fun _ => .ok ⟨none⟩) [0] "V" doc1).map
        (fun ev => (ev.mandatory_gate.passed, ev.mandatory_gate.failures,
          ev.raw_score, ev.match_percentage, ev.recommendation))
      = .ok (true, ([] : List String), (0 : ℚ), (0 : ℚ),
             "SEEK CLARIFICATION") :=
  (missing_scores_key_spec doc1 [0] "V").2 (by decide) (by decide)
